import Mathlib

/-!
Shallow embedding of the Calisto multi-agent conversation orchestrator
(`src/agents/orchestrator.py` and `src/agents/base.py`).

The Python code drives a round-robin conversation between agents:
`MultiAgentOrchestrator.run` appends messages to `self.conversation_history`
turn by turn, skipping `HumanAgent` participants, checking a keyword
termination predicate after every successful append, and re-raising any
exception raised by an agent respond call.  `run_streaming` is the generator
variant that additionally yields each message as it is appended.

Python mutable state is made explicit: the orchestrator field
`conversation_history` at call entry is an argument, and the pair returned
by the model carries the final history together with `none` (normal
return) or `some e` (a raised exception carrying description `e`).
Wall-clock timestamps are not modelled; `generation_time` is carried as an
abstract natural number produced by the respond call of the agent.
-/

/-- One entry of `conversation_history` (a Python dict in the source).
`generation_time` is `none` exactly for the seed message. -/
structure Message where
  turn : Nat
  agent : String
  company : String
  role : String
  message : String
  generation_time : Option Nat
deriving DecidableEq, Repr

/-- A participant: either an autonomous `Agent` (whose `respond` is the
composite behaviour of prompt building, the HTTP call and parsing, returning
reply text and elapsed seconds or raising) or a `HumanAgent` placeholder. -/
inductive Participant where
  | auto (name company role : String)
      (respond : List Message → Except String (String × Nat))
  | human (name company role : String)

def Participant.name : Participant → String
  | .auto n _ _ _ => n
  | .human n _ _ => n

def Participant.company : Participant → String
  | .auto _ c _ _ => c
  | .human _ c _ => c

def Participant.role : Participant → String
  | .auto _ _ r _ => r
  | .human _ _ r => r

/-- Models `isinstance(current_agent, HumanAgent)`. -/
def Participant.isHuman : Participant → Bool
  | .auto _ _ _ _ => false
  | .human _ _ _ => true

/-- Decides whether `haystack` starts with `needle` (helper for the Python `in` operator). -/
def startsWithChars : List Char → List Char → Bool
  | _, [] => true
  | [], _ :: _ => false
  | a :: as, b :: bs => a == b && startsWithChars as bs

/-- The Python substring test `needle in haystack`, on character lists. -/
def containsSub : List Char → List Char → Bool
  | [], needle => needle.isEmpty
  | a :: t, needle => startsWithChars (a :: t) needle || containsSub t needle

/-- The Python substring test `needle in haystack` on strings. -/
def strContainsSub (haystack needle : String) : Bool :=
  containsSub haystack.data needle.data

/-- The Python `str.lower` method (adequate for the ASCII keyword texts
involved), kept kernel-computable by working on the character list. -/
def pyLower (s : String) : String :=
  ⟨s.data.map Char.toLower⟩

/-- The Python `str.strip` method with no argument: remove leading and
trailing whitespace. -/
def pyStrip (s : String) : String :=
  ⟨((s.data.dropWhile Char.isWhitespace).reverse.dropWhile
      Char.isWhitespace).reverse⟩

/-- The fixed `completion_keywords` list of `_should_terminate`. -/
def completionKeywords : List String :=
  ["deal", "agreed", "agreement", "signed", "approved",
   "contract", "goodbye", "thank you for your time"]

/-- Embeds `MultiAgentOrchestrator._should_terminate`: false on an empty history,
otherwise true iff the lower-cased text of the last message contains one of
the completion keywords. -/
def shouldTerminate (history : List Message) : Bool :=
  match history.getLast? with
  | none => false
  | some m =>
    completionKeywords.any fun kw => strContainsSub (pyLower m.message) kw

/-- Embeds `MultiAgentOrchestrator._execute_turn` minus the mutation: returns
`ok none` for a skipped human, `ok (some msg)` with the message built from
the reply of the agent, or the propagated error.  (In the source the append to
`conversation_history` happens inside `_execute_turn`; here the caller
appends the returned message, which is observationally the same.) -/
def executeTurn (p : Participant) (history : List Message) (turn : Nat) :
    Except String (Option Message) :=
  match p with
  | .human _ _ _ => .ok none
  | .auto n c r f =>
    match f history with
    | .error e => .error e
    | .ok (resp, gt) => .ok (some ⟨turn, n, c, r, resp, some gt⟩)

/-- Python truthiness of the `initial_message` argument: `None` and the
empty string are falsy (`if not initial_message`, `1 if initial_message
else 0`). -/
def seedTruthy : Option String → Bool
  | none => false
  | some s => !s.isEmpty

/-- The `for turn in range(1, max_turns + 1)` loop of
`MultiAgentOrchestrator.run`, with the remaining iteration count as fuel:
look up the agent at the current index (`none` models the Python
`IndexError`), execute the turn, append on success, stop when
`_should_terminate` fires, advance the index by `+1 mod len(agents)`.
Returns the final `conversation_history` and `none` for a normal return or
`some e` for a raised exception. -/
def runAux (a : List Participant) (i : Nat) (h : List Message) (t : Nat) :
    Nat → List Message × Option String
  | 0 => (h, none)
  | r + 1 =>
    match a.get? i with
    | none => (h, some "IndexError")
    | some p =>
      match executeTurn p h t with
      | .error e => (h, some e)
      | .ok none => runAux a ((i + 1) % a.length) h (t + 1) r
      | .ok (some msg) =>
        let h₁ := h ++ [msg]
        if shouldTerminate h₁ then (h₁, none)
        else runAux a ((i + 1) % a.length) h₁ (t + 1) r

/-- The seed message appended by `_add_initial_message`: turn 0, attributed
to `agents[0]`, no `generation_time`. -/
def seedMessage (p : Participant) (s : String) : Message :=
  ⟨0, p.name, p.company, p.role, s, none⟩

/-- Embeds `MultiAgentOrchestrator.run`: append the seed (if truthy) attributed to
`agents[0]`, start rotation at index 1 if seeded else 0, run the loop.
`h₀` is `self.conversation_history` at call entry (empty for a fresh
orchestrator). -/
def run (a : List Participant) (maxTurns : Nat) (im : Option String)
    (h₀ : List Message) : List Message × Option String :=
  if seedTruthy im then
    match a.head?, im with
    | some p, some s => runAux a 1 (h₀ ++ [seedMessage p s]) 1 maxTurns
    | _, _ => (h₀, some "IndexError")
  else
    runAux a 0 h₀ 1 maxTurns

/-- The loop of `MultiAgentOrchestrator.run_streaming`.  Returns the final
history, the list of messages yielded by this part of the generator (each
successful turn is yielded right after its append, before the termination
check and before the index advances), and the raised exception if any. -/
def runStreamingAux (a : List Participant) (i : Nat) (h : List Message)
    (t : Nat) : Nat → List Message × List Message × Option String
  | 0 => (h, [], none)
  | r + 1 =>
    match a.get? i with
    | none => (h, [], some "IndexError")
    | some p =>
      match executeTurn p h t with
      | .error e => (h, [], some e)
      | .ok none => runStreamingAux a ((i + 1) % a.length) h (t + 1) r
      | .ok (some msg) =>
        let h₁ := h ++ [msg]
        if shouldTerminate h₁ then (h₁, [msg], none)
        else
          let res := runStreamingAux a ((i + 1) % a.length) h₁ (t + 1) r
          (res.1, msg :: res.2.1, res.2.2)

/-- Embeds `MultiAgentOrchestrator.run_streaming`: if the seed is truthy it is
appended and `self.conversation_history[0]` is yielded (the source indexes
position 0, not the appended message), then the loop runs.  Result:
(final history, full yield sequence, raised exception if any). -/
def runStreaming (a : List Participant) (maxTurns : Nat) (im : Option String)
    (h₀ : List Message) : List Message × List Message × Option String :=
  if seedTruthy im then
    match a.head?, im with
    | some p, some s =>
      let h₁ := h₀ ++ [seedMessage p s]
      let y₀ := match h₁.head? with
        | some m => [m]
        | none => []
      let res := runStreamingAux a 1 h₁ 1 maxTurns
      (res.1, y₀ ++ res.2.1, res.2.2)
    | _, _ => (h₀, [], some "IndexError")
  else
    let res := runStreamingAux a 0 h₀ 1 maxTurns
    (res.1, res.2.1, res.2.2)

/-- The sequence of values taken by `current_agent_index` at the head of
each executed loop iteration of `run` (and `run_streaming`, whose loop is
identical); the first element is the initial assignment `1 if
initial_message else 0`. -/
def runIdxAux (a : List Participant) (i : Nat) (h : List Message) (t : Nat) :
    Nat → List Nat
  | 0 => []
  | r + 1 =>
    i :: (match a.get? i with
    | none => []
    | some p =>
      match executeTurn p h t with
      | .error _ => []
      | .ok none => runIdxAux a ((i + 1) % a.length) h (t + 1) r
      | .ok (some msg) =>
        let h₁ := h ++ [msg]
        if shouldTerminate h₁ then []
        else runIdxAux a ((i + 1) % a.length) h₁ (t + 1) r)

/-- Index trace of a whole `run` call. -/
def runIdxs (a : List Participant) (maxTurns : Nat) (im : Option String)
    (h₀ : List Message) : List Nat :=
  if seedTruthy im then
    match a.head?, im with
    | some p, some s => runIdxAux a 1 (h₀ ++ [seedMessage p s]) 1 maxTurns
    | _, _ => []
  else
    runIdxAux a 0 h₀ 1 maxTurns

/-- The speaker names `run` generates from start index `i` over `T` loop
iterations: one name per non-human slot of the round-robin cycle. -/
def expectedSpeakers (a : List Participant) (i T : Nat) : List String :=
  (List.range T).filterMap fun k =>
    match a.get? ((i + k) % a.length) with
    | none => none
    | some p => if p.isHuman then none else some p.name

/-- Outcome of the HTTP request made by `Agent._call_llm_api` (`requests.post` +
`raise_for_status` + `.json()`): a timeout, a transport/HTTP error, or a
parsed JSON body abstracted to the optional string found at
`choices[0].message.content` (`none` when that path is absent). -/
inductive ApiResult where
  | timeout
  | transportError (msg : String)
  | success (content : Option String)
deriving DecidableEq, Repr

/-- Embeds `Agent._call_llm_api`: turns a timeout into a raised
`RuntimeError("... timed out ...")` and any other request failure into a
raised `RuntimeError("... failed to connect ...")`; otherwise returns the
response JSON. -/
def callLlmApi (api : ApiResult) : Except String (Option String) :=
  match api with
  | .timeout => .error "timed out waiting for LLM response"
  | .transportError m => .error m
  | .success c => .ok c

/-- Embeds `Agent.respond`: call the API, extract
the content field at path choices[0].message.content (absence raises), strip it,
raise on an empty reply, otherwise return the stripped text with the
elapsed time measured around the whole call. -/
def respond (api : ApiResult) (elapsed : Nat) : Except String (String × Nat) :=
  match callLlmApi api with
  | .error e => .error e
  | .ok none => .error "received invalid response from LLM"
  | .ok (some c) =>
    let m := pyStrip c
    if m.isEmpty then .error "received empty response from LLM"
    else .ok (m, elapsed)

/-! ## Helper lemmas about the loop -/

/-- A successful autonomous turn produces a message carrying the turn
number and the identity of a non-human participant. -/
lemma executeTurn_ok_some {p : Participant} {h : List Message} {t : Nat}
    {m : Message} (hex : executeTurn p h t = .ok (some m)) :
    m.turn = t ∧ m.agent = p.name ∧ p.isHuman = false := by
  cases p with
  | human n c r => simp [executeTurn] at hex
  | auto n c r f =>
    simp only [executeTurn] at hex
    cases hf : f h with
    | error e => rw [hf] at hex; simp at hex
    | ok v =>
      rw [hf] at hex
      obtain ⟨resp, gt⟩ := v
      simp at hex
      subst hex
      simp [Participant.name, Participant.isHuman]

/-- Master invariant of the `run` loop: the final history extends the
initial one by at most `fuel` messages, whose turn numbers lie in
`[t, t + fuel)` and are strictly increasing, and the termination predicate
is false on every proper prefix that ends strictly after the initial
history (the loop stops as soon as it fires). -/
lemma runAux_spec (a : List Participant) :
    ∀ (r i t : Nat) (h h' : List Message) (e : Option String),
      runAux a i h t r = (h', e) →
      ∃ s, h' = h ++ s ∧ s.length ≤ r ∧
        (∀ m ∈ s, t ≤ m.turn ∧ m.turn < t + r) ∧
        s.Pairwise (fun x y => x.turn < y.turn) ∧
        ∀ j, h.length ≤ j → j + 1 < h'.length →
          shouldTerminate (h'.take (j + 1)) = false := by
  intro r
  induction r with
  | zero =>
    intro i t h h' e hrun
    simp only [runAux] at hrun
    obtain ⟨rfl, rfl⟩ : h = h' ∧ (none : Option String) = e := by
      constructor <;> [exact congrArg Prod.fst hrun; exact congrArg Prod.snd hrun]
    refine ⟨[], by simp, by simp, by simp, by simp, ?_⟩
    intro j hj hlt
    omega
  | succ r ih =>
    intro i t h h' e hrun
    rw [runAux] at hrun
    rcases hget : a.get? i with _ | p
    · rw [hget] at hrun
      simp only at hrun
      obtain ⟨rfl, rfl⟩ : h = h' ∧ _ := ⟨congrArg Prod.fst hrun, congrArg Prod.snd hrun⟩
      refine ⟨[], by simp, by simp, by simp, by simp, ?_⟩
      intro j hj hlt
      omega
    · rw [hget] at hrun
      simp only at hrun
      rcases hex : executeTurn p h t with e' | m?
      · rw [hex] at hrun
        simp only at hrun
        obtain ⟨rfl, rfl⟩ : h = h' ∧ _ := ⟨congrArg Prod.fst hrun, congrArg Prod.snd hrun⟩
        refine ⟨[], by simp, by simp, by simp, by simp, ?_⟩
        intro j hj hlt
        omega
      · rw [hex] at hrun
        rcases m? with _ | msg
        · -- human skipped
        
          simp only at hrun
          obtain ⟨s, rfl, hlen, hturns, hpw, hterm⟩ := ih _ _ _ _ _ hrun
          refine ⟨s, rfl, by omega, ?_, hpw, hterm⟩
          intro m hm
          have := hturns m hm
          omega
        · -- message appended
          simp only at hrun
          have hmsg := executeTurn_ok_some hex
          by_cases hst : shouldTerminate (h ++ [msg]) = true
          · rw [if_pos hst] at hrun
            obtain ⟨rfl, rfl⟩ : h ++ [msg] = h' ∧ _ :=
              ⟨congrArg Prod.fst hrun, congrArg Prod.snd hrun⟩
            refine ⟨[msg], rfl, by simp, ?_, by simp, ?_⟩
            · intro m hm
              simp at hm
              subst hm
              omega
            · intro j hj hlt
              simp at hlt
              omega
          · rw [if_neg hst] at hrun
            obtain ⟨s, rfl, hlen, hturns, hpw, hterm⟩ := ih _ _ _ _ _ hrun
            refine ⟨msg :: s, by simp, by simp; omega, ?_, ?_, ?_⟩
            · intro m hm
              rcases List.mem_cons.mp hm with rfl | hm
              · omega
              · have := hturns m hm
                omega
            · refine List.pairwise_cons.mpr ⟨?_, hpw⟩
              intro m hm
              have := hturns m hm
              omega
            · intro j hj hlt
              rcases Nat.eq_or_lt_of_le hj with rfl | hj'
              · have htake : ((h ++ [msg]) ++ s).take (h.length + 1) = h ++ [msg] := by
                  have : h.length + 1 = (h ++ [msg]).length := by simp
                  rw [this, List.take_left]
                rw [List.append_assoc] at htake ⊢
                rw [htake]
                exact Bool.not_eq_true _ ▸ (by simpa using hst)
              · have : (h ++ [msg]).length ≤ j := by simp; omega
                exact hterm j this hlt

/-- The final history always extends the history the loop started from. -/
lemma runAux_prefix (a : List Participant) (r i t : Nat) (h : List Message) :
    ∃ s, (runAux a i h t r).1 = h ++ s := by
  obtain ⟨s, hs, -⟩ :=
    runAux_spec a r i t h (runAux a i h t r).1 (runAux a i h t r).2 rfl
  exact ⟨s, hs⟩

/-- A backend that never raises: every respond call of an autonomous agent
returns a value (human placeholders trivially qualify). -/
def alwaysSucceeds : Participant → Prop
  | .auto _ _ _ f => ∀ h, ∃ v, f h = Except.ok v
  | .human _ _ _ => True

/-- With an always-succeeding backend and an in-range index, the loop never
raises. -/
lemma runAux_no_error (a : List Participant)
    (hs : ∀ p ∈ a, alwaysSucceeds p) :
    ∀ (r i t : Nat) (h : List Message), i < a.length →
      (runAux a i h t r).2 = none := by
  intro r
  induction r with
  | zero => intro i t h _; simp [runAux]
  | succ r ih =>
    intro i t h hi
    rw [runAux]
    have hlen : 0 < a.length := by omega
    have hnext : (i + 1) % a.length < a.length := Nat.mod_lt _ hlen
    rcases hget : a.get? i with _ | p
    · rw [List.get?_eq_none] at hget; omega
    · have hmem : p ∈ a := List.get?_mem hget
      simp only
      cases p with
      | human n c r' =>
        simp only [executeTurn]
        exact ih ((i + 1) % a.length) (t + 1) h hnext
      | auto n c r' f =>
        have hok := hs _ hmem
        simp only [alwaysSucceeds] at hok
        obtain ⟨v, hv⟩ := hok h
        obtain ⟨resp, gt⟩ := v
        have hex : executeTurn (.auto n c r' f) h t =
            .ok (some ⟨t, n, c, r', resp, some gt⟩) := by
          simp [executeTurn, hv]
        rw [hex]
        simp only
        by_cases hst : shouldTerminate (h ++ [⟨t, n, c, r', resp, some gt⟩]) = true
        · rw [if_pos hst]
        · rw [if_neg hst]
          exact ih ((i + 1) % a.length) (t + 1) _ hnext

/-- The streaming loop returns the same final history and error as the
blocking loop, and its yields are exactly the messages the loop appended
beyond the initial history. -/
lemma runStreamingAux_eq (a : List Participant) :
    ∀ (r i t : Nat) (h : List Message),
      runStreamingAux a i h t r =
        ((runAux a i h t r).1, (runAux a i h t r).1.drop h.length,
          (runAux a i h t r).2) := by
  intro r
  induction r with
  | zero => intro i t h; simp [runStreamingAux, runAux]
  | succ r ih =>
    intro i t h
    rw [runStreamingAux, runAux]
    rcases hget : a.get? i with _ | p
    · simp
    · simp only
      rcases hex : executeTurn p h t with e | m?
      · simp
      · rcases m? with _ | msg
        · simp only
          exact ih ((i + 1) % a.length) (t + 1) h
        · simp only
          by_cases hst : shouldTerminate (h ++ [msg]) = true
          · rw [if_pos hst, if_pos hst]
            simp
          · rw [if_neg hst, if_neg hst, ih]
            obtain ⟨s, hsfx⟩ :=
              runAux_prefix a r ((i + 1) % a.length) (t + 1) (h ++ [msg])
            rw [hsfx]
            simp

/-- Rotating the start index commutes with stepping along the cycle. -/
lemma add_one_mod_add (i k n : Nat) :
    ((i + 1) % n + k) % n = (i + (k + 1)) % n := by
  rw [Nat.mod_add_mod]
  congr 1
  omega

/-- Unfold one slot of the expected round-robin speaker sequence. -/
lemma expectedSpeakers_succ (a : List Participant) (i T : Nat) :
    expectedSpeakers a i (T + 1) =
      (match a.get? (i % a.length) with
       | none => []
       | some p => if p.isHuman then [] else [p.name]) ++
      expectedSpeakers a ((i + 1) % a.length) T := by
  unfold expectedSpeakers
  rw [List.range_succ_eq_map, List.filterMap_cons]
  rw [List.filterMap_map]
  have harg : ∀ k, (i + Nat.succ k) % a.length = ((i + 1) % a.length + k) % a.length := by
    intro k
    rw [add_one_mod_add]
  have hfe :
      ((fun k =>
        match a.get? ((i + k) % a.length) with
        | none => none
        | some p => if p.isHuman = true then none else some p.name) ∘ Nat.succ) =
      (fun k =>
        match a.get? (((i + 1) % a.length + k) % a.length) with
        | none => none
        | some p => if p.isHuman = true then none else some p.name) := by
    funext k
    simp only [Function.comp_apply]
    rw [harg k]
  rw [hfe]
  simp only [Nat.add_zero]
  rcases hget : a.get? (i % a.length) with _ | p
  · simp
  · by_cases hh : p.isHuman = true
    · simp [hh]
    · simp [hh]

/-- When the loop returns normally, the speaker names it appended are the
non-human slots of the round-robin cycle starting at the start index, for
some number of executed iterations bounded by the fuel. -/
lemma runAux_speakers (a : List Participant) :
    ∀ (r i t : Nat) (h h' : List Message),
      runAux a i h t r = (h', none) →
      ∃ T, T ≤ r ∧
        h'.map Message.agent = h.map Message.agent ++ expectedSpeakers a i T := by
  intro r
  induction r with
  | zero =>
    intro i t h h' hrun
    simp only [runAux] at hrun
    have heq : h = h' := congrArg Prod.fst hrun
    subst heq
    exact ⟨0, Nat.zero_le _, by simp [expectedSpeakers]⟩
  | succ r ih =>
    intro i t h h' hrun
    rw [runAux] at hrun
    rcases hget : a.get? i with _ | p
    · rw [hget] at hrun
      simp only at hrun
      exact absurd (congrArg Prod.snd hrun) (by simp)
    · have hi : i < a.length := by
        by_contra hcon
        push_neg at hcon
        rw [List.get?_eq_none.mpr hcon] at hget
        cases hget
      have himod : i % a.length = i := Nat.mod_eq_of_lt hi
      rw [hget] at hrun
      simp only at hrun
      rcases hex : executeTurn p h t with e | m?
      · rw [hex] at hrun
        simp only at hrun
        exact absurd (congrArg Prod.snd hrun) (by simp)
      · rw [hex] at hrun
        rcases m? with _ | msg
        · simp only at hrun
          obtain ⟨T, hT, hmap⟩ := ih _ _ _ _ hrun
          refine ⟨T + 1, by omega, ?_⟩
          rw [expectedSpeakers_succ, himod, hget]
          have hhum : p.isHuman = true := by
            cases p with
            | human _ _ _ => rfl
            | auto n c r' f =>
              exfalso
              simp only [executeTurn] at hex
              rcases hfv : f h with e₂ | v
              · rw [hfv] at hex; simp at hex
              · obtain ⟨resp, gt⟩ := v
                rw [hfv] at hex
                simp at hex
          simpa [hhum] using hmap
        · simp only at hrun
          obtain ⟨hturn, hagent, hhum⟩ := executeTurn_ok_some hex
          by_cases hst : shouldTerminate (h ++ [msg]) = true
          · rw [if_pos hst] at hrun
            have heq : h ++ [msg] = h' := congrArg Prod.fst hrun
            subst heq
            refine ⟨1, by omega, ?_⟩
            rw [expectedSpeakers_succ, himod, hget]
            simp [hhum, hagent, expectedSpeakers]
          · rw [if_neg hst] at hrun
            obtain ⟨T, hT, hmap⟩ := ih _ _ _ _ hrun
            refine ⟨T + 1, by omega, ?_⟩
            rw [expectedSpeakers_succ, himod, hget, hmap]
            simp [hhum, hagent]

/-- With nonzero fuel the first traced index is the start index. -/
lemma runIdxAux_head (a : List Participant) (i t r : Nat) (h : List Message) :
    (runIdxAux a i h t (r + 1)).head? = some i := by
  rw [runIdxAux]
  simp

/-- The head of the index trace, for arbitrary fuel. -/
lemma runIdxAux_head_cases (a : List Participant) (i t r : Nat)
    (h : List Message) :
    (runIdxAux a i h t r).head? = none ∨
      (runIdxAux a i h t r).head? = some i := by
  cases r with
  | zero => left; simp [runIdxAux]
  | succ r => right; exact runIdxAux_head a i t r h

/-- If the start index is in range, every traced index stays in range (the
advance is always taken modulo the participant count). -/
lemma runIdxAux_lt (a : List Participant) :
    ∀ (r i t : Nat) (h : List Message), i < a.length →
      ∀ v ∈ runIdxAux a i h t r, v < a.length := by
  intro r
  induction r with
  | zero => intro i t h _ v hv; simp [runIdxAux] at hv
  | succ r ih =>
    intro i t h hi v hv
    rw [runIdxAux] at hv
    have hlen : 0 < a.length := by omega
    have hnext : (i + 1) % a.length < a.length := Nat.mod_lt _ hlen
    rcases List.mem_cons.mp hv with rfl | hv'
    · exact hi
    · rcases hget : a.get? i with _ | p
      · rw [hget] at hv'; simp at hv'
      · rw [hget] at hv'
        simp only at hv'
        rcases hex : executeTurn p h t with e | m?
        · rw [hex] at hv'; simp at hv'
        · rw [hex] at hv'
          rcases m? with _ | msg
          · simp only at hv'
            exact ih _ _ _ hnext v hv'
          · simp only at hv'
            by_cases hst : shouldTerminate (h ++ [msg]) = true
            · rw [if_pos hst] at hv'; simp at hv'
            · rw [if_neg hst] at hv'
              exact ih _ _ _ hnext v hv'

/-- Consecutive traced indices always differ by `+1 mod len(agents)`: the
index advances that way after every turn attempt, including skipped human
turns. -/
lemma runIdxAux_chain (a : List Participant) :
    ∀ (r i t : Nat) (h : List Message),
      List.Chain' (fun u v => v = (u + 1) % a.length) (runIdxAux a i h t r) := by
  intro r
  induction r with
  | zero => intro i t h; simp [runIdxAux]
  | succ r ih =>
    intro i t h
    rw [runIdxAux]
    apply List.chain'_cons'.mpr
    constructor
    · intro y hy
      rcases hget : a.get? i with _ | p
      · rw [hget] at hy; simp at hy
      · rw [hget] at hy
        simp only at hy
        rcases hex : executeTurn p h t with e | m?
        · rw [hex] at hy; simp at hy
        · rw [hex] at hy
          rcases m? with _ | msg
          · simp only at hy
            rcases runIdxAux_head_cases a ((i + 1) % a.length) (t + 1) r h
              with hc | hc
            · rw [hc] at hy; simp at hy
            · rw [hc] at hy; simp at hy; omega
          · simp only at hy
            by_cases hst : shouldTerminate (h ++ [msg]) = true
            · rw [if_pos hst] at hy; simp at hy
            · rw [if_neg hst] at hy
              rcases runIdxAux_head_cases a ((i + 1) % a.length) (t + 1) r
                (h ++ [msg]) with hc | hc
              · rw [hc] at hy; simp at hy
              · rw [hc] at hy; simp at hy; omega
    · rcases hget : a.get? i with _ | p
      · simp
      · simp only
        rcases hex : executeTurn p h t with e | m?
        · simp
        · rcases m? with _ | msg
          · simp only
            exact ih _ _ _
          · simp only
            by_cases hst : shouldTerminate (h ++ [msg]) = true
            · rw [if_pos hst]; simp
            · rw [if_neg hst]
              exact ih _ _ _

/-! ## Substring correctness -/

/-- Correctness of the starts-with test. -/
lemma startsWithChars_iff :
    ∀ (n h : List Char), startsWithChars h n = true ↔ ∃ t, h = n ++ t := by
  intro n
  induction n with
  | nil =>
    intro h
    simp [startsWithChars]
  | cons b bs ih =>
    intro h
    cases h with
    | nil =>
      simp [startsWithChars]
    | cons a as =>
      rw [startsWithChars]
      simp only [Bool.and_eq_true, beq_iff_eq, ih as]
      constructor
      · rintro ⟨rfl, t, rfl⟩
        exact ⟨t, rfl⟩
      · rintro ⟨t, ht⟩
        injection ht with h1 h2
        exact ⟨h1, t, h2⟩

/-- Correctness of the Python substring test: `containsSub h n` holds iff
`n` occurs contiguously somewhere in `h`. -/
lemma containsSub_iff :
    ∀ (h n : List Char), containsSub h n = true ↔
      ∃ pre post, h = pre ++ (n ++ post) := by
  intro h
  induction h with
  | nil =>
    intro n
    rw [containsSub]
    cases n with
    | nil => simp
    | cons b bs => simp [List.isEmpty]
  | cons a t ih =>
    intro n
    rw [containsSub]
    simp only [Bool.or_eq_true, startsWithChars_iff, ih]
    constructor
    · rintro (⟨s, hs⟩ | ⟨pre, post, hp⟩)
      · exact ⟨[], s, by simpa using hs⟩
      · exact ⟨a :: pre, post, by simp [hp]⟩
    · rintro ⟨pre, post, hp⟩
      cases pre with
      | nil =>
        left
        exact ⟨post, by simpa using hp⟩
      | cons x xs =>
        right
        injection hp with h1 h2
        exact ⟨xs, post, h2⟩

/-- Whole-call equivalence on a fresh orchestrator: the streaming variant
ends with the same history and error as the blocking variant, and its yield
sequence is exactly the history the blocking variant returns. -/
lemma runStreaming_eq_run_all (a : List Participant) (mt : Nat)
    (im : Option String) :
    runStreaming a mt im [] =
      ((run a mt im []).1, (run a mt im []).1, (run a mt im []).2) := by
  unfold run runStreaming
  by_cases hs : seedTruthy im = true
  · rw [if_pos hs, if_pos hs]
    rcases im with _ | s
    · simp [seedTruthy] at hs
    · rcases a with _ | ⟨p, a'⟩
      · simp
      · simp only [List.head?_cons, List.nil_append]
        rw [runStreamingAux_eq]
        obtain ⟨sfx, hsfx⟩ :=
          runAux_prefix (p :: a') mt 1 1 [seedMessage p s]
        rw [hsfx]
        simp
  · rw [if_neg hs, if_neg hs]
    rw [runStreamingAux_eq]
    simp

/-! ## Concrete participants for the closed instances -/

/-- An autonomous agent whose backend reply is a fixed keyword-free text. -/
def sarah : Participant :=
  .auto "Sarah" "HPE" "Sales Director" fun _ => .ok ("Our proposal stands.", 2)

/-- A second autonomous agent with a fixed keyword-free reply. -/
def yuki : Participant :=
  .auto "Yuki" "Toyota" "Procurement Lead" fun _ => .ok ("We can proceed.", 3)

/-- An autonomous agent whose backend always raises. -/
def flaky : Participant :=
  .auto "Flaky" "HPE" "Engineer" fun _ => .error "boom"

/-- A constant successful backend always succeeds. -/
lemma alwaysSucceeds_const (n c r : String) (v : String × Nat) :
    alwaysSucceeds (.auto n c r fun _ => Except.ok v) :=
  fun _ => ⟨v, rfl⟩

/-! ## The claims -/

/-- C4: `_should_terminate` returns true iff the log is non-empty and the
lower-cased text of its most recent message contains one of the eight
completion keywords as a contiguous substring; on the empty log it returns
false. -/
theorem shouldTerminate_iff_keyword (h : List Message) :
    (shouldTerminate h = true ↔
      ∃ m, h.getLast? = some m ∧ ∃ kw ∈ completionKeywords,
        ∃ pre post, (pyLower m.message).data = pre ++ (kw.data ++ post)) ∧
    shouldTerminate ([] : List Message) = false := by
  constructor
  · unfold shouldTerminate
    rcases hl : h.getLast? with _ | m
    · simp
    · simp only [List.any_eq_true]
      constructor
      · rintro ⟨kw, hkw, hc⟩
        refine ⟨m, rfl, kw, hkw, ?_⟩
        exact (containsSub_iff _ _).mp hc
      · rintro ⟨m', hm', kw, hkw, pre, post, hp⟩
        cases hm'
        exact ⟨kw, hkw, (containsSub_iff _ _).mpr ⟨pre, post, hp⟩⟩
  · rfl

/-- C9: an empty-string seed is falsy in Python, so it is treated exactly
like no seed at all: no turn-0 message is appended and rotation begins at
index 0, in `run`, `run_streaming` and the rotation-index trace alike. -/
theorem empty_seed_eq_no_seed (a : List Participant) (mt : Nat)
    (h₀ : List Message) :
    run a mt (some "") h₀ = run a mt none h₀ ∧
    runStreaming a mt (some "") h₀ = runStreaming a mt none h₀ ∧
    runIdxs a mt (some "") h₀ = runIdxs a mt none h₀ :=
  ⟨rfl, rfl, rfl⟩

/-- C3: for identical participants, seed and `max_turns`, on a fresh
orchestrator with a deterministic backend, `run_streaming` yields exactly
the messages `run` returns, in the same order (each one is produced at its
append point, before the termination check and before the index advance, by
construction of `runStreamingAux`), and both end with the same final
history and the same error behaviour. -/
theorem runStreaming_refines_run (a : List Participant) (mt : Nat)
    (im : Option String) :
    (runStreaming a mt im []).2.1 = (run a mt im []).1 ∧
    (runStreaming a mt im []).1 = (run a mt im []).1 ∧
    (runStreaming a mt im []).2.2 = (run a mt im []).2 := by
  rw [runStreaming_eq_run_all]
  exact ⟨rfl, rfl, rfl⟩

/-- C10: no orchestrator operation removes or mutates an existing log
entry: the final history of any `run` or `run_streaming` call extends the
history present at call entry, so in particular a second call on the same
orchestrator appends its messages after all messages left by the first. -/
theorem conversation_history_append_only (a : List Participant) (mt : Nat)
    (im : Option String) (h₀ : List Message) :
    (∃ s, (run a mt im h₀).1 = h₀ ++ s) ∧
    (∃ s, (runStreaming a mt im h₀).1 = h₀ ++ s) := by
  have hstream : (runStreaming a mt im h₀).1 = (run a mt im h₀).1 := by
    unfold run runStreaming
    by_cases hs : seedTruthy im = true
    · rw [if_pos hs, if_pos hs]
      rcases im with _ | s
      · simp [seedTruthy] at hs
      · rcases a with _ | ⟨p, a'⟩
        · rfl
        · simp only [List.head?_cons]
          rw [runStreamingAux_eq]
    · rw [if_neg hs, if_neg hs]
      rw [runStreamingAux_eq]
  have hrun : ∃ s, (run a mt im h₀).1 = h₀ ++ s := by
    unfold run
    by_cases hs : seedTruthy im = true
    · rw [if_pos hs]
      rcases im with _ | s
      · simp [seedTruthy] at hs
      · rcases a with _ | ⟨p, a'⟩
        · exact ⟨[], by simp⟩
        · simp only [List.head?_cons]
          obtain ⟨sfx, hsfx⟩ :=
            runAux_prefix (p :: a') mt 1 1 (h₀ ++ [seedMessage p s])
          exact ⟨[seedMessage p s] ++ sfx, by rw [hsfx, List.append_assoc]⟩
    · rw [if_neg hs]
      exact runAux_prefix a mt 0 1 h₀
  exact ⟨hrun, hstream ▸ hrun⟩

/-- C1 counterexample: a seeded run with a single always-succeeding
participant does not return normally.  Rotation starts at index 1, the loop
indexes `agents[1]` on a one-element list, and the resulting `IndexError`
propagates; the log at that point holds only the seed. -/
theorem run_seeded_single_raises :
    (∀ p ∈ [sarah], alwaysSucceeds p) ∧
    run [sarah] 1 (some "Hello") [] =
      ([seedMessage sarah "Hello"], some "IndexError") := by
  constructor
  · intro p hp
    have hp' : p = sarah := by simpa using hp
    subst hp'
    exact alwaysSucceeds_const _ _ _ _
  · rfl

/-- C1 (amended): for every non-empty participant list, `max_turns ≥ 1`
and an always-succeeding backend, provided the run is unseeded or has at
least two participants (so that the initial rotation index is in range),
`run` on a fresh orchestrator returns normally with a log of at most
`(1 if seeded else 0) + max_turns` messages whose turn numbers are
strictly increasing. -/
theorem run_returns_bounded_increasing (a : List Participant) (mt : Nat)
    (im : Option String) (ha : a ≠ []) (_hmt : 1 ≤ mt)
    (hstart : seedTruthy im = false ∨ 2 ≤ a.length)
    (hsucc : ∀ p ∈ a, alwaysSucceeds p) :
    ∃ log, run a mt im [] = (log, none) ∧
      log.length ≤ (if seedTruthy im then 1 else 0) + mt ∧
      log.Pairwise (fun x y => x.turn < y.turn) := by
  have hlen : 0 < a.length := List.length_pos.mpr ha
  unfold run
  by_cases hs : seedTruthy im = true
  · rw [if_pos hs, if_pos hs]
    rcases im with _ | s
    · simp [seedTruthy] at hs
    · rcases a with _ | ⟨p, a'⟩
      · simp at hlen
      · have h2 : 2 ≤ (p :: a').length := by
          rcases hstart with hcon | h
        
          · rw [hcon] at hs; cases hs
          · exact h
        simp only [List.head?_cons, List.nil_append]
        have hnone : (runAux (p :: a') 1 [seedMessage p s] 1 mt).2 = none :=
          runAux_no_error _ hsucc mt 1 1 _ (by simpa using h2)
        obtain ⟨sfx, hpre, hslen, hturns, hpw, -⟩ :=
          runAux_spec (p :: a') mt 1 1 [seedMessage p s] _ _ rfl
        refine ⟨(runAux (p :: a') 1 [seedMessage p s] 1 mt).1, ?_, ?_, ?_⟩
        · rw [← hnone]
        · rw [hpre]
          simp only [List.length_append, List.length_cons, List.length_nil]
          omega
        · rw [hpre]
          apply List.pairwise_append.mpr
          refine ⟨by simp, hpw, ?_⟩
          intro x hx y hy
          have hx' : x = seedMessage p s := by simpa using hx
          subst hx'
          have h1 := (hturns y hy).1
          have h0 : (seedMessage p s).turn = 0 := rfl
          omega
  · rw [if_neg hs, if_neg hs]
    have hnone : (runAux a 0 [] 1 mt).2 = none :=
      runAux_no_error _ hsucc mt 0 1 _ hlen
    obtain ⟨sfx, hpre, hslen, hturns, hpw, -⟩ :=
      runAux_spec a mt 0 1 [] _ _ rfl
    refine ⟨(runAux a 0 [] 1 mt).1, ?_, ?_, ?_⟩
    · rw [← hnone]
    · rw [hpre]
      simp only [List.nil_append]
      omega
    · rw [hpre]
      simpa using hpw

/-- C1 witness: a seeded two-participant run with `max_turns = 2`. -/
theorem run_returns_bounded_increasing_witness :
    ∃ log, run [sarah, yuki] 2 (some "Hello") [] = (log, none) ∧
      log.length ≤ (if seedTruthy (some "Hello") then 1 else 0) + 2 ∧
      log.Pairwise (fun x y => x.turn < y.turn) :=
  run_returns_bounded_increasing [sarah, yuki] 2 (some "Hello")
    (by simp) (by omega) (Or.inr (by simp))
    (by
      intro p hp
      rcases List.mem_cons.mp hp with rfl | hp'
      · exact alwaysSucceeds_const _ _ _ _
      · have hp'' : p = yuki := by simpa using hp'
        subst hp''
        exact alwaysSucceeds_const _ _ _ _)

/-- C2 counterexample: in a seeded run with a single participant the
rotation index starts at (and is used at) the value 1, which is not in
`[0, 1)`; indexing `agents[1]` there is what raises `IndexError`. -/
theorem rotation_index_out_of_range :
    runIdxs [sarah] 1 (some "Hello") [] = [1] ∧
    ¬ (1 < ([sarah] : List Participant).length) := by
  constructor
  · rfl
  · simp

/-- C2 (amended): provided the initial rotation index is itself in range —
the run is unseeded, or there are at least two participants — every value
`current_agent_index` takes during the loop of `run`/`run_streaming` lies
in `[0, len(participants))`; and unconditionally each consecutive value is
the previous one advanced by `+1 mod len(participants)`, including on
turns where a human placeholder was skipped. -/
theorem rotation_index_invariant (a : List Participant) (mt : Nat)
    (im : Option String) (h₀ : List Message) (ha : a ≠ [])
    (hstart : seedTruthy im = false ∨ 2 ≤ a.length) :
    (∀ v ∈ runIdxs a mt im h₀, v < a.length) ∧
    List.Chain' (fun u v => v = (u + 1) % a.length)
      (runIdxs a mt im h₀) := by
  have hlen : 0 < a.length := List.length_pos.mpr ha
  unfold runIdxs
  by_cases hs : seedTruthy im = true
  · rw [if_pos hs]
    rcases im with _ | s
    · simp [seedTruthy] at hs
    · rcases a with _ | ⟨p, a'⟩
      · simp at hlen
      · have h2 : 2 ≤ (p :: a').length := by
          rcases hstart with hcon | h
          · rw [hcon] at hs; cases hs
          · exact h
        simp only [List.head?_cons]
        exact ⟨runIdxAux_lt _ mt 1 1 _ (by simpa using h2),
          runIdxAux_chain _ mt 1 1 _⟩
  · rw [if_neg hs]
    exact ⟨runIdxAux_lt _ mt 0 1 _ hlen, runIdxAux_chain _ mt 0 1 _⟩

/-- C2 witness: a seeded two-participant run. -/
theorem rotation_index_invariant_witness :
    (∀ v ∈ runIdxs [sarah, yuki] 2 (some "Hello") [],
      v < ([sarah, yuki] : List Participant).length) ∧
    List.Chain'
      (fun u v => v = (u + 1) % ([sarah, yuki] : List Participant).length)
      (runIdxs [sarah, yuki] 2 (some "Hello") []) :=
  rotation_index_invariant [sarah, yuki] 2 (some "Hello") []
    (by simp) (Or.inr (by simp))

/-- C7: whenever `run` on a fresh orchestrator returns normally, the
speaker names of the returned log are exactly the non-human slots of the
round-robin cycle over the participants in construction order for some
number of executed iterations `T ≤ max_turns`: the cycle starts at index 0
when unseeded; when seeded, the seed is spoken by the first participant and
the cycle starts at index 1. -/
theorem run_round_robin_speakers (a : List Participant) (mt : Nat)
    (im : Option String) (log : List Message)
    (hrun : run a mt im [] = (log, none)) :
    (seedTruthy im = false →
      ∃ T ≤ mt, log.map Message.agent = expectedSpeakers a 0 T) ∧
    (seedTruthy im = true →
      ∃ p, a.head? = some p ∧
        ∃ T ≤ mt, log.map Message.agent =
          p.name :: expectedSpeakers a 1 T) := by
  constructor
  · intro hs
    unfold run at hrun
    rw [if_neg (by simp [hs])] at hrun
    obtain ⟨T, hT, hmap⟩ := runAux_speakers a mt 0 1 [] log hrun
    exact ⟨T, hT, by simpa using hmap⟩
  · intro hs
    unfold run at hrun
    rw [if_pos hs] at hrun
    rcases im with _ | s
    · simp [seedTruthy] at hs
    · rcases a with _ | ⟨p, a'⟩
      · simp only [List.head?_nil] at hrun
        exact absurd (congrArg Prod.snd hrun) (by simp)
      · simp only [List.head?_cons, List.nil_append] at hrun
        obtain ⟨T, hT, hmap⟩ := runAux_speakers _ mt 1 1 _ log hrun
        refine ⟨p, rfl, T, hT, ?_⟩
        simpa [seedMessage] using hmap

/-- C7 witness: a seeded two-participant run with one executed turn. -/
theorem run_round_robin_speakers_witness :
    (seedTruthy (some "Hello") = false →
      ∃ T ≤ 1,
        ([seedMessage sarah "Hello",
          ⟨1, "Yuki", "Toyota", "Procurement Lead", "We can proceed.",
            some 3⟩] : List Message).map Message.agent =
          expectedSpeakers [sarah, yuki] 0 T) ∧
    (seedTruthy (some "Hello") = true →
      ∃ p, ([sarah, yuki] : List Participant).head? = some p ∧
        ∃ T ≤ 1,
          ([seedMessage sarah "Hello",
            ⟨1, "Yuki", "Toyota", "Procurement Lead", "We can proceed.",
              some 3⟩] : List Message).map Message.agent =
            p.name :: expectedSpeakers [sarah, yuki] 1 T) :=
  run_round_robin_speakers [sarah, yuki] 1 (some "Hello") _ (by decide)

/-- C8 counterexample: the predicate is already true on the log right
after the turn-0 seed "We have a deal" is appended, yet the run still
produces the turn-1 message — the source evaluates `_should_terminate`
only after loop appends, never after the seed. -/
theorem seed_keyword_not_checked :
    shouldTerminate
      ((run [sarah, yuki] 1 (some "We have a deal") []).1.take 1) = true ∧
    (run [sarah, yuki] 1 (some "We have a deal") []).1.map Message.turn =
      [0, 1] := by
  exact ⟨by decide, by decide⟩

/-- C8 (amended): in any run from a fresh orchestrator, if the message at
position `j` has turn number `k ≥ 1` (i.e. it was appended by the loop) and
some later message exists, then the termination predicate was false on the
log as it stood right after that message — equivalently, once the predicate
fires on a loop-appended message no later message is produced, by `run` or
by `run_streaming`, whose yield sequence is the same list.  Turn 0 (the
seed) is excluded: the source never evaluates the predicate after the seed
append (see the counterexample). -/
theorem terminate_stops_run (a : List Participant) (mt : Nat)
    (im : Option String) (j : Nat) (m : Message)
    (hj : (run a mt im []).1.get? j = some m) (hturn : 1 ≤ m.turn)
    (hlt : j + 1 < (run a mt im []).1.length) :
    shouldTerminate ((run a mt im []).1.take (j + 1)) = false ∧
    shouldTerminate ((runStreaming a mt im []).2.1.take (j + 1)) = false := by
  have hyield : (runStreaming a mt im []).2.1 = (run a mt im []).1 := by
    rw [runStreaming_eq_run_all]
  rw [hyield]
  have main : shouldTerminate ((run a mt im []).1.take (j + 1)) = false := by
    unfold run at hj hlt ⊢
    by_cases hs : seedTruthy im = true
    · rw [if_pos hs] at hj hlt ⊢
      rcases im with _ | s
      · simp [seedTruthy] at hs
      · rcases a with _ | ⟨p, a'⟩
        · simp only [List.head?_nil] at hj
          simp at hj
        · simp only [List.head?_cons, List.nil_append] at hj hlt ⊢
          obtain ⟨sfx, hpre, -, hturns, -, hterm⟩ :=
            runAux_spec (p :: a') mt 1 1 [seedMessage p s] _ _ rfl
          have hj1 : 1 ≤ j := by
            rcases Nat.eq_zero_or_pos j with rfl | hpos
            · rw [hpre] at hj
              have hz : ([seedMessage p s] ++ sfx).get? 0 =
                  some (seedMessage p s) := rfl
              rw [hz] at hj
              injection hj with hj
              rw [← hj] at hturn
              simp [seedMessage] at hturn
            · exact hpos
          exact hterm j (by simpa using hj1) hlt
    · rw [if_neg hs] at hj hlt ⊢
      obtain ⟨sfx, hpre, -, -, -, hterm⟩ := runAux_spec a mt 0 1 [] _ _ rfl
      exact hterm j (by simp) hlt
  exact ⟨main, main⟩

/-- C8 witness: an unseeded two-participant run where the turn-1 message is
followed by a turn-2 message. -/
theorem terminate_stops_run_witness :
    shouldTerminate ((run [sarah, yuki] 2 none []).1.take 1) = false ∧
    shouldTerminate
      ((runStreaming [sarah, yuki] 2 none []).2.1.take 1) = false :=
  terminate_stops_run [sarah, yuki] 2 none 0
    ⟨1, "Sarah", "HPE", "Sales Director", "Our proposal stands.", some 2⟩
    (by decide) (by decide) (by decide)

/-- C5: when the run loop (of `run` or `run_streaming`) reaches a turn
whose current participant raises from `respond` on the history accumulated
so far, the whole call fails immediately with that error: the final history
is exactly the history from before the failing turn — the seed, if any,
plus every earlier successful turn — and no message representing the
failure is appended (the streaming loop also yields nothing further). -/
theorem respond_failure_propagates (a : List Participant) (i t r : Nat)
    (h : List Message) (n c rl : String)
    (f : List Message → Except String (String × Nat)) (e : String)
    (hr : 1 ≤ r) (hget : a.get? i = some (.auto n c rl f))
    (hf : f h = .error e) :
    runAux a i h t r = (h, some e) ∧
    runStreamingAux a i h t r = (h, [], some e) := by
  rcases r with _ | r
  · omega
  · have hex : executeTurn (.auto n c rl f) h t = .error e := by
      simp [executeTurn, hf]
    constructor
    · rw [runAux, hget]
      simp [hex]
    · rw [runStreamingAux, hget]
      simp [hex]

/-- C5 witness: the loop reaching a failing agent at once returns the
prior history and the propagated error. -/
theorem respond_failure_propagates_witness :
    runAux [flaky] 0 [] 1 5 = ([], some "boom") ∧
    runStreamingAux [flaky] 0 [] 1 5 = ([], [], some "boom") :=
  respond_failure_propagates [flaky] 0 1 5 [] "Flaky" "HPE" "Engineer"
    (fun _ => Except.error "boom") "boom" (by omega) rfl rfl

/-- C6: `Agent.respond` raises iff the backend call timed out, the HTTP
transport failed, the response JSON lacks the reply-content field, or the
reply text is empty after trimming whitespace; on success it returns the
trimmed reply text together with the elapsed wall-clock duration. -/
theorem respond_raises_iff (api : ApiResult) (elapsed : Nat) :
    ((∃ e, respond api elapsed = .error e) ↔
      (api = .timeout ∨ (∃ msg, api = .transportError msg) ∨
        api = .success none ∨
        ∃ c, api = .success (some c) ∧ (pyStrip c).isEmpty = true)) ∧
    (∀ c, api = .success (some c) → (pyStrip c).isEmpty = false →
      respond api elapsed = .ok (pyStrip c, elapsed)) := by
  constructor
  · cases api with
    | timeout => simp [respond, callLlmApi]
    | transportError msg => simp [respond, callLlmApi]
    | success c =>
      cases c with
      | none => simp [respond, callLlmApi]
      | some c =>
        by_cases he : (pyStrip c).isEmpty = true
        · simp [respond, callLlmApi, he]
        · simp [respond, callLlmApi, he]
  · rintro c rfl he
    simp [respond, callLlmApi, he]

/-- C6 witness: a successful call with whitespace-padded content. -/
theorem respond_raises_iff_witness :
    respond (.success (some "  All good here  ")) 7 =
      .ok (pyStrip "  All good here  ", 7) :=
  (respond_raises_iff (.success (some "  All good here  ")) 7).2
    "  All good here  " rfl (by decide)
